import Mathlib

/-!
Verification of the condition-balancing algorithm of `conditionGenerator.py`
(Illusory Line Task Condition Generator).

The script builds a list of trial records in four phases:
1. allocation: for each line condition (category) in iteration order,
   `n_line = round(total_trials * proportion)`, `n_per_cue = n_line // 2`,
   and `n_per_cue` identical records are appended per cue condition;
2. reconciliation: a while-loop appends random congruent/incongruent records
   while the list is short, and a while-loop deletes the first "center"
   record (falling back to index 0) while the list is long;
3. a seeded shuffle (`random.seed(seed)`, `random.shuffle(trials)`);
4. numbering: `enumerate(trials, 1)` writes `trial_num` fields.

Embedding choices: Python ints are `ℤ`; the float proportion literal
`0.3333333333333` is the exact rational `3333333333333 / 10^13` and Python's
`round` is round-half-to-even on `ℚ` (for every concrete value appearing in
the theorems below the rational and IEEE-double computations round to the
same integer, being far from half-integer ties); Python `//` is `Int.fdiv`
(floor division); the unseeded `random.choice` calls of the reconciliation
phase are driven by an explicit input stream `rnd : ℕ → ℕ × ℕ` (the pair of
indices chosen at each append step); `del trials[idx]` on an empty list is
the `IndexError` branch of an `Except`.
-/

namespace ConditionGenerator

/-- One trial record before numbering: the two dictionary fields written by
the allocation and reconciliation phases. -/
structure Trial where
  cueCondition : String
  lineCondition : String
deriving DecidableEq, Repr

/-- One trial record after the numbering phase, with the `trial_num` field
added by `enumerate(trials, 1)`. -/
structure NumberedTrial where
  cueCondition : String
  lineCondition : String
  trial_num : ℕ
deriving DecidableEq, Repr

/-- `cue_conditions = ["cued", "uncued"]` (line 32 of the source). -/
def cue_conditions : List String := ["cued", "uncued"]

/-- `line_conditions` (lines 33-37 of the source): the three categories with
their proportions; the float literal `0.3333333333333` as an exact rational. -/
def line_conditions : List (String × ℚ) :=
  [("congruent", 3333333333333 / 10 ^ 13),
   ("incongruent", 3333333333333 / 10 ^ 13),
   ("center", 3333333333333 / 10 ^ 13)]

/-- Python's built-in `round`: round half to even (banker's rounding). -/
def pyRound (q : ℚ) : ℤ :=
  let f := ⌊q⌋
  let r := q - (f : ℚ)
  if r < 1 / 2 then f
  else if 1 / 2 < r then f + 1
  else if f % 2 = 0 then f else f + 1

/-- The allocation phase (lines 42-52): for each line condition in iteration
order and each cue condition in order, append `n_per_cue = n_line // 2`
identical records, where `n_line = round(total * proportion)`.
A negative `n_per_cue` yields an empty `range`, hence `Int.toNat`. -/
def allocation (total : ℤ) : List Trial :=
  line_conditions.flatMap fun lc =>
    cue_conditions.flatMap fun cue =>
      List.replicate ((pyRound ((total : ℚ) * lc.2)).fdiv 2).toNat
        { cueCondition := cue, lineCondition := lc.1 }

/-- Python's `random.choice(l)`: an element of `l` at a random valid index;
the index supplied by the stream is reduced mod the length. -/
def choice (l : List String) (k : ℕ) : String := l.getD (k % l.length) ""

/-- The under-shoot reconciliation loop (lines 57-61): while the list is
shorter than `total`, append a record with a random cue condition and a
random line condition drawn from `["congruent", "incongruent"]`.
`rnd` is the stream of random index pairs, `k` the iteration counter. -/
def undershoot (total : ℤ) (rnd : ℕ → ℕ × ℕ) (k : ℕ) (ts : List Trial) :
    List Trial :=
  if (ts.length : ℤ) < total then
    undershoot total rnd (k + 1)
      (ts ++ [{ cueCondition := choice cue_conditions (rnd k).1,
                lineCondition := choice ["congruent", "incongruent"] (rnd k).2 }])
  else ts
termination_by (total - ts.length).toNat
decreasing_by simp only [List.length_append, List.length_cons, List.length_nil]; omega

/-- One iteration body of the over-shoot loop (lines 63-65):
`idx = next((i for i, t in enumerate(trials) if t["lineCondition"] == "center"), 0)`
followed by `del trials[idx]`. -/
def overshootStep (ts : List Trial) : List Trial :=
  let idx := match ts.findIdx? (fun t => t.lineCondition == "center") with
    | some i => i
    | none => 0
  ts.eraseIdx idx

theorem length_overshootStep {ts : List Trial} (h : ts ≠ []) :
    (overshootStep ts).length = ts.length - 1 := by
  unfold overshootStep
  have hlen : 0 < ts.length := List.length_pos.mpr h
  cases hfi : ts.findIdx? (fun t => t.lineCondition == "center") with
  | none => simp [List.length_eraseIdx, hlen]
  | some i =>
    have hi : i < ts.length := by
      have := List.findIdx?_eq_some_iff_findIdx_eq.mp hfi
      exact this.1
    simp [List.length_eraseIdx, hi]

/-- The over-shoot reconciliation loop (lines 62-65): while the list is
longer than `total`, delete the record at `idx`; `del trials[idx]` raises
`IndexError` when the list is empty (possible only for negative `total`). -/
def overshoot (total : ℤ) (ts : List Trial) : Except String (List Trial) :=
  if (ts.length : ℤ) > total then
    match ts with
    | [] => .error "IndexError: list assignment index out of range"
    | t :: rest => overshoot total (overshootStep (t :: rest))
  else .ok ts
termination_by ts.length
decreasing_by
  rw [length_overshootStep (List.cons_ne_nil t rest)]
  simp

/-- Both reconciliation loops in source order: under-shoot then over-shoot. -/
def reconcile (total : ℤ) (rnd : ℕ → ℕ × ℕ) (ts : List Trial) :
    Except String (List Trial) :=
  overshoot total (undershoot total rnd 0 ts)

/-- Modelled from the spec: `random.seed(seed)` / `random.shuffle(trials)`
(lines 70-71) use Python's standard-library PRNG, which is not part of this
repository; per the spec's ordering phase the shuffle is a deterministic,
seed-reproducible uniform in-place permutation.  Here: a linear
congruential step function drives the index choices. -/
def lcg (s : ℕ) : ℕ := (1103515245 * s + 12345) % 2 ^ 31

/-- Modelled from the spec: the permutation pass of the shuffle — repeatedly
pick the element at the PRNG-chosen index and remove it. -/
def shuffleGo : ℕ → List Trial → List Trial
  | _, [] => []
  | s, t :: rest =>
    let x := (t :: rest).get ⟨s % (t :: rest).length,
      Nat.mod_lt _ (Nat.succ_pos rest.length)⟩
    x :: shuffleGo (lcg s) ((t :: rest).erase x)
termination_by _ ts => ts.length
decreasing_by
  have hx : x ∈ t :: rest := List.get_mem _ _ _
  rw [List.length_erase_of_mem hx]
  simp

/-- Modelled from the spec: the seeded shuffle — the PRNG state is a
deterministic function of the caller-supplied seed. -/
def shuffle (seed : ℤ) (ts : List Trial) : List Trial :=
  shuffleGo seed.natAbs ts

/-- The numbering phase (lines 72-73): `for i, t in enumerate(trials, 1):
t["trial_num"] = i`. -/
def numberTrials (ts : List Trial) : List NumberedTrial :=
  (List.enumFrom 1 ts).map fun p =>
    { cueCondition := p.2.cueCondition, lineCondition := p.2.lineCondition,
      trial_num := p.1 }

/-- The whole generator pipeline: allocation, reconciliation, seeded
shuffle, numbering.  `total` is `total_trials`, `seed` is `seed`, `rnd`
drives the unseeded reconciliation randomness. -/
def generate (total seed : ℤ) (rnd : ℕ → ℕ × ℕ) :
    Except String (List NumberedTrial) :=
  match reconcile total rnd (allocation total) with
  | .error e => .error e
  | .ok ts => .ok (numberTrials (shuffle seed ts))

/-- The (cueCondition, lineCondition) pair of a numbered record. -/
def NumberedTrial.pair (t : NumberedTrial) : String × String :=
  (t.cueCondition, t.lineCondition)

/-- The (cueCondition, lineCondition) pair of an unnumbered record. -/
def Trial.pair (t : Trial) : String × String :=
  (t.cueCondition, t.lineCondition)

/-! ### Loop lemmas -/

/-- Any element returned by `choice` on a nonempty list is an element of
the list. -/
theorem choice_mem {l : List String} (h : l ≠ []) (k : ℕ) : choice l k ∈ l := by
  have hlen : 0 < l.length := List.length_pos.mpr h
  have h2 : k % l.length < l.length := Nat.mod_lt _ hlen
  simp only [choice, List.getD_eq_getElem?_getD, List.getElem?_eq_getElem h2,
    Option.getD_some]
  exact List.getElem_mem h2

theorem undershoot_length (total : ℤ) (rnd : ℕ → ℕ × ℕ) (k : ℕ)
    (ts : List Trial) :
    (undershoot total rnd k ts).length = max ts.length total.toNat := by
  induction k, ts using undershoot.induct total rnd with
  | case1 k ts h ih =>
    rw [undershoot, if_pos h, ih]
    simp only [List.length_append, List.length_cons, List.length_nil]
    omega
  | case2 k ts h =>
    rw [undershoot, if_neg h]
    omega

theorem undershoot_eq_append (total : ℤ) (rnd : ℕ → ℕ × ℕ) (k : ℕ)
    (ts : List Trial) :
    ∃ app, undershoot total rnd k ts = ts ++ app ∧
      ∀ t ∈ app, t.cueCondition ∈ cue_conditions ∧
        t.lineCondition ∈ (["congruent", "incongruent"] : List String) := by
  induction k, ts using undershoot.induct total rnd with
  | case1 k ts h ih =>
    obtain ⟨app, happ, hprop⟩ := ih
    refine ⟨{ cueCondition := choice cue_conditions (rnd k).1,
              lineCondition := choice ["congruent", "incongruent"] (rnd k).2 }
            :: app, ?_, ?_⟩
    · rw [undershoot, if_pos h, happ, List.append_assoc]
      rfl
    · intro t ht
      rcases List.mem_cons.mp ht with rfl | ht
      · exact ⟨choice_mem (by simp [cue_conditions]) _,
          choice_mem (by simp) _⟩
      · exact hprop t ht
  | case2 k ts h =>
    exact ⟨[], by rw [undershoot, if_neg h, List.append_nil], by simp⟩

theorem overshoot_noop {total : ℤ} {ts : List Trial}
    (h : (ts.length : ℤ) ≤ total) : overshoot total ts = .ok ts := by
  rw [overshoot.eq_def, if_neg (by omega)]

theorem overshoot_ok {total : ℤ} (h0 : 0 ≤ total) :
    ∀ ts : List Trial, total ≤ (ts.length : ℤ) →
      ∃ r, overshoot total ts = .ok r ∧ (r.length : ℤ) = total := by
  intro ts
  induction ts using overshoot.induct total with
  | case1 h =>
    intro _
    simp only [List.length_nil, Nat.cast_zero, gt_iff_lt] at h
    omega
  | case2 t rest h ih =>
    intro _
    rw [overshoot.eq_def, if_pos h]
    have hlen : (overshootStep (t :: rest)).length = (t :: rest).length - 1 :=
      length_overshootStep (List.cons_ne_nil t rest)
    exact ih (by rw [hlen]; simp at h ⊢; omega)
  | case3 ts h =>
    intro hle
    exact ⟨ts, by rw [overshoot.eq_def, if_neg h], by simp at h; omega⟩

/-- Reconciliation succeeds with exact length for every nonnegative target,
whatever the starting list and random stream. -/
theorem reconcile_ok {total : ℤ} (h0 : 0 ≤ total) (rnd : ℕ → ℕ × ℕ)
    (ts : List Trial) :
    ∃ r, reconcile total rnd ts = .ok r ∧ (r.length : ℤ) = total := by
  have hu := undershoot_length total rnd 0 ts
  exact overshoot_ok h0 _ (by rw [hu]; omega)

/-- The over-shoot loop body removes the first "center" record when one
exists, and otherwise removes the head of the list. -/
theorem overshootStep_eq (ts : List Trial) :
    overshootStep ts =
      if ts.any (fun t => t.lineCondition == "center")
      then ts.eraseP (fun t => t.lineCondition == "center")
      else ts.tail := by
  induction ts with
  | nil => rfl
  | cons t rest ih =>
    by_cases hp : t.lineCondition == "center"
    · simp [overshootStep, List.findIdx?_cons, hp]
    · cases hfi : rest.findIdx? (fun t => t.lineCondition == "center") with
      | none =>
        have hany : rest.any (fun t => t.lineCondition == "center") = false := by
          rw [← List.findIdx?_isSome, hfi]
          rfl
        simp [overshootStep, List.findIdx?_cons, hp, hfi, hany]
      | some i =>
        have hany : rest.any (fun t => t.lineCondition == "center") = true := by
          rw [← List.findIdx?_isSome, hfi]
          rfl
        have herase : rest.eraseIdx i
            = rest.eraseP (fun t => t.lineCondition == "center") := by
          have h2 := ih
          rw [hany, if_pos rfl] at h2
          unfold overshootStep at h2
          rw [hfi] at h2
          exact h2
        simp [overshootStep, List.findIdx?_cons, hp, hfi, hany, herase]

/-- The modelled shuffle is a permutation of its input. -/
theorem shuffleGo_perm (s : ℕ) (ts : List Trial) : (shuffleGo s ts).Perm ts := by
  induction s, ts using shuffleGo.induct with
  | case1 s => simp [shuffleGo]
  | case2 s t rest x ih =>
    have hx : x ∈ t :: rest := List.get_mem _ _ _
    have h1 : shuffleGo s (t :: rest)
        = x :: shuffleGo (lcg s) ((t :: rest).erase x) := by
      simp only [shuffleGo]
    rw [h1]
    exact (ih.cons x).trans (List.perm_cons_erase hx).symm

theorem shuffle_perm (seed : ℤ) (ts : List Trial) :
    (shuffle seed ts).Perm ts :=
  shuffleGo_perm seed.natAbs ts

theorem numberTrials_length (ts : List Trial) :
    (numberTrials ts).length = ts.length := by
  simp [numberTrials]

/-- Numbering writes exactly the sequence numbers 1, 2, ..., length, in
list order. -/
theorem numberTrials_map_num (ts : List Trial) :
    (numberTrials ts).map (fun t => t.trial_num) = List.range' 1 ts.length := by
  rw [numberTrials, List.map_map]
  exact List.enumFrom_map_fst 1 ts

/-- Numbering does not change the (cue, line) fields of any record. -/
theorem numberTrials_map_pair (ts : List Trial) :
    (numberTrials ts).map NumberedTrial.pair = ts.map Trial.pair := by
  have h : ts.map Trial.pair
      = List.map (Trial.pair ∘ Prod.snd) (List.enumFrom 1 ts) := by
    rw [← List.map_map, List.enumFrom_map_snd]
  rw [h, numberTrials, List.map_map]
  rfl

/-- Per-pair count contributed by the allocation phase. -/
theorem allocation_count (total : ℤ) (cue : String) (hcue : cue ∈ cue_conditions)
    (lc : String × ℚ) (hlc : lc ∈ line_conditions) :
    (allocation total).count { cueCondition := cue, lineCondition := lc.1 }
      = ((pyRound ((total : ℚ) * lc.2)).fdiv 2).toNat := by
  simp only [cue_conditions, List.mem_cons, List.not_mem_nil, or_false] at hcue
  simp only [line_conditions, List.mem_cons, List.not_mem_nil, or_false] at hlc
  rcases hcue with rfl | rfl <;> rcases hlc with rfl | rfl | rfl <;>
    simp [allocation, line_conditions, cue_conditions, List.count_append,
      List.count_replicate]

/-! ### Step equations used to evaluate the loops on concrete inputs -/

theorem undershoot_stop {total : ℤ} {ts : List Trial}
    (h : ¬ (ts.length : ℤ) < total) (rnd : ℕ → ℕ × ℕ) (k : ℕ) :
    undershoot total rnd k ts = ts := by
  rw [undershoot, if_neg h]

theorem undershoot_step {total : ℤ} {ts : List Trial}
    (h : (ts.length : ℤ) < total) (rnd : ℕ → ℕ × ℕ) (k : ℕ) :
    undershoot total rnd k ts = undershoot total rnd (k + 1)
      (ts ++ [{ cueCondition := choice cue_conditions (rnd k).1,
                lineCondition := choice ["congruent", "incongruent"] (rnd k).2 }]) := by
  rw [undershoot, if_pos h]

theorem overshoot_step {total : ℤ} {t : Trial} {rest : List Trial}
    (h : ((t :: rest).length : ℤ) > total) :
    overshoot total (t :: rest) = overshoot total (overshootStep (t :: rest)) := by
  rw [overshoot.eq_def, if_pos h]

theorem overshoot_fail {total : ℤ} (h : 0 > total) :
    overshoot total ([] : List Trial)
      = .error "IndexError: list assignment index out of range" := by
  rw [overshoot.eq_def, if_pos (by simpa using h)]

theorem shuffleGo_nil (s : ℕ) : shuffleGo s [] = [] := by
  simp [shuffleGo]

theorem shuffleGo_cons (s : ℕ) (t : Trial) (rest : List Trial) :
    shuffleGo s (t :: rest)
      = (t :: rest).getD (s % (t :: rest).length) t
        :: shuffleGo (lcg s)
            ((t :: rest).erase ((t :: rest).getD (s % (t :: rest).length) t)) := by
  have hlt : s % (t :: rest).length < (t :: rest).length :=
    Nat.mod_lt _ (Nat.succ_pos _)
  have hg : (t :: rest).getD (s % (t :: rest).length) t
      = (t :: rest).get ⟨s % (t :: rest).length, hlt⟩ := by
    rw [List.getD_eq_getElem?_getD, List.getElem?_eq_getElem hlt]
    rfl
  rw [hg]
  simp only [shuffleGo]

/-- The generator pipeline on a nonnegative total: reconciliation succeeds
and the output is the numbering of the shuffle of the reconciled list. -/
theorem generate_ok {total : ℤ} (h0 : 0 ≤ total) (seed : ℤ) (rnd : ℕ → ℕ × ℕ) :
    ∃ r, reconcile total rnd (allocation total) = .ok r ∧
      (r.length : ℤ) = total ∧
      generate total seed rnd = .ok (numberTrials (shuffle seed r)) := by
  obtain ⟨r, hr, hlen⟩ := reconcile_ok h0 rnd _
  exact ⟨r, hr, hlen, by rw [generate, hr]⟩

/-! ### Concrete allocation computations -/

theorem allocation_five : allocation 5 =
    [{ cueCondition := "cued", lineCondition := "congruent" },
     { cueCondition := "uncued", lineCondition := "congruent" },
     { cueCondition := "cued", lineCondition := "incongruent" },
     { cueCondition := "uncued", lineCondition := "incongruent" },
     { cueCondition := "cued", lineCondition := "center" },
     { cueCondition := "uncued", lineCondition := "center" }] := by
  have hpy : pyRound ((5 : ℚ) * ((3333333333333 : ℚ) / 10 ^ 13)) = 2 := by
    norm_num [pyRound]
  have hf : ((2 : ℤ).fdiv 2).toNat = 1 := by decide
  simp +decide [allocation, line_conditions, cue_conditions, hpy, hf]

theorem allocation_six : allocation 6 =
    [{ cueCondition := "cued", lineCondition := "congruent" },
     { cueCondition := "uncued", lineCondition := "congruent" },
     { cueCondition := "cued", lineCondition := "incongruent" },
     { cueCondition := "uncued", lineCondition := "incongruent" },
     { cueCondition := "cued", lineCondition := "center" },
     { cueCondition := "uncued", lineCondition := "center" }] := by
  have hpy : pyRound ((6 : ℚ) * ((3333333333333 : ℚ) / 10 ^ 13)) = 2 := by
    norm_num [pyRound]
  have hf : ((2 : ℤ).fdiv 2).toNat = 1 := by decide
  simp +decide [allocation, line_conditions, cue_conditions, hpy, hf]

theorem allocation_zero : allocation 0 = [] := by
  have hpy : pyRound (0 : ℚ) = 0 := by norm_num [pyRound]
  have hf : ((0 : ℤ).fdiv 2).toNat = 0 := by decide
  simp +decide [allocation, line_conditions, cue_conditions, hpy, hf]

theorem allocation_neg_one : allocation (-1) = [] := by
  have hpy : pyRound (-((3333333333333 : ℚ) / 10 ^ 13)) = 0 := by
    norm_num [pyRound]
  have hf : ((0 : ℤ).fdiv 2).toNat = 0 := by decide
  simp +decide [allocation, line_conditions, cue_conditions, hpy, hf]

/-! ### Claims -/

/-- C1: for every `total > 0` the trial list has length exactly `total` once
the reconciliation phase completes, and the final generated list also has
length exactly `total`, for any seed and any reconciliation randomness. -/
theorem generate_length_eq_total (total seed : ℤ) (rnd : ℕ → ℕ × ℕ)
    (h : 0 < total) :
    ∃ r l, reconcile total rnd (allocation total) = .ok r ∧
      (r.length : ℤ) = total ∧
      generate total seed rnd = .ok l ∧ (l.length : ℤ) = total := by
  obtain ⟨r, hrec, hlen, hgen⟩ := generate_ok (le_of_lt h) seed rnd
  refine ⟨r, _, hrec, hlen, hgen, ?_⟩
  rw [numberTrials_length, (shuffle_perm seed r).length_eq]
  exact hlen

theorem generate_length_eq_total_witness :
    ∃ r l, reconcile 2 (fun _ => (0, 0)) (allocation 2) = .ok r ∧
      (r.length : ℤ) = 2 ∧
      generate 2 42 (fun _ => (0, 0)) = .ok l ∧ (l.length : ℤ) = 2 :=
  generate_length_eq_total 2 42 (fun _ => (0, 0)) (by norm_num)

/-- C2: the sequence numbers of the final output are exactly 1, 2, ...,
total in list order after the shuffle — 1-based, contiguous, each exactly
once — whatever the category/factor composition produced by the random
reconciliation stream. -/
theorem sequence_numbers_exact (total seed : ℤ) (rnd : ℕ → ℕ × ℕ)
    (h0 : 0 ≤ total) :
    ∃ l, generate total seed rnd = .ok l ∧
      l.map (fun t => t.trial_num) = List.range' 1 total.toNat := by
  obtain ⟨r, _, hlen, hgen⟩ := generate_ok h0 seed rnd
  refine ⟨_, hgen, ?_⟩
  rw [numberTrials_map_num, (shuffle_perm seed r).length_eq]
  congr 1
  omega

theorem sequence_numbers_exact_witness :
    ∃ l, generate 2 42 (fun _ => (0, 0)) = .ok l ∧
      l.map (fun t => t.trial_num) = List.range' 1 (2 : ℤ).toNat :=
  sequence_numbers_exact 2 42 (fun _ => (0, 0)) (by norm_num)

/-- C5: every record appended by the under-shoot loop has a factor level
among the two cue conditions and a category in the fixed two-element subset
consisting of "congruent" and "incongruent"; "center" is never appended. -/
theorem undershoot_appends_only_minority (total : ℤ) (rnd : ℕ → ℕ × ℕ)
    (k : ℕ) (ts : List Trial) :
    ∃ app, undershoot total rnd k ts = ts ++ app ∧
      ∀ t ∈ app, t.cueCondition ∈ cue_conditions ∧
        t.lineCondition ∈ (["congruent", "incongruent"] : List String) ∧
        t.lineCondition ≠ "center" := by
  obtain ⟨app, happ, hprop⟩ := undershoot_eq_append total rnd k ts
  refine ⟨app, happ, fun t ht => ?_⟩
  obtain ⟨h1, h2⟩ := hprop t ht
  refine ⟨h1, h2, ?_⟩
  simp only [List.mem_cons, List.not_mem_nil, or_false] at h2
  rcases h2 with h2 | h2 <;> simp [h2]

/-- C9: the shuffle is a permutation of the reconciled list — the length
and the multiset of (factorLevel, categoryName) pairs are unchanged — and
the numbering phase only adds sequence numbers: it inserts and removes
nothing and alters no record's pair of condition fields. -/
theorem frame_shuffle_numbering (seed : ℤ) (ts : List Trial) :
    (shuffle seed ts).Perm ts ∧
    (shuffle seed ts).length = ts.length ∧
    ((shuffle seed ts).map Trial.pair).Perm (ts.map Trial.pair) ∧
    (numberTrials (shuffle seed ts)).length = (shuffle seed ts).length ∧
    (numberTrials (shuffle seed ts)).map NumberedTrial.pair
      = (shuffle seed ts).map Trial.pair :=
  ⟨shuffle_perm seed ts, (shuffle_perm seed ts).length_eq,
    (shuffle_perm seed ts).map Trial.pair, numberTrials_length _,
    numberTrials_map_pair _⟩

/-- C10: for every nonnegative `total` the reconciliation phase terminates
with the list at length exactly `total` and never attempts an out-of-bounds
deletion: starting from any allocated list and any random stream, both
while-loops finish and return a list (never the `IndexError` branch). -/
theorem reconciliation_terminates (total : ℤ) (rnd : ℕ → ℕ × ℕ)
    (ts : List Trial) (h0 : 0 ≤ total) :
    ∃ r, reconcile total rnd ts = .ok r ∧ (r.length : ℤ) = total :=
  reconcile_ok h0 rnd ts

theorem reconciliation_terminates_witness :
    ∃ r, reconcile 0 (fun _ => (0, 0)) [] = .ok r ∧ (r.length : ℤ) = 0 :=
  reconciliation_terminates 0 (fun _ => (0, 0)) [] (le_refl 0)

/-- C3: for each category in iteration order the allocation phase
contributes exactly `round(total * proportion) // 2` identical records per
factor level; the remainder 0 or 1 of the floor division is dropped, not
distributed; and the allocated sum can fall short of `total` by more than
the global rounding error (at `total = 100` the phase allocates only 96
records, a shortfall of 4). -/
theorem allocation_per_level_counts (total : ℤ) :
    (∀ cue ∈ cue_conditions, ∀ lc ∈ line_conditions,
      (allocation total).count { cueCondition := cue, lineCondition := lc.1 }
        = ((pyRound ((total : ℚ) * lc.2)).fdiv 2).toNat) ∧
    (∀ lc ∈ line_conditions,
      pyRound ((total : ℚ) * lc.2) - 2 * (pyRound ((total : ℚ) * lc.2)).fdiv 2
          = 0 ∨
      pyRound ((total : ℚ) * lc.2) - 2 * (pyRound ((total : ℚ) * lc.2)).fdiv 2
          = 1) ∧
    ((allocation 100).length : ℤ) = 100 - 4 := by
  refine ⟨fun cue hcue lc hlc => allocation_count total cue hcue lc hlc,
    fun lc _ => ?_, ?_⟩
  · rw [Int.fdiv_eq_ediv _ (by norm_num)]
    omega
  · have hpy : pyRound ((100 : ℚ) * ((3333333333333 : ℚ) / 10 ^ 13)) = 33 := by
      norm_num [pyRound]
    have hf : ((33 : ℤ).fdiv 2).toNat = 16 := by decide
    simp +decide [allocation, line_conditions, cue_conditions, hpy, hf]

theorem allocation_per_level_counts_witness :
    (allocation 100).count { cueCondition := "cued", lineCondition := "center" }
      = 16 := by
  have h := (allocation_per_level_counts 100).1 "cued" (by simp [cue_conditions])
    ("center", (3333333333333 : ℚ) / 10 ^ 13) (by simp [line_conditions])
  have hpy : pyRound (((100 : ℤ) : ℚ) * ((3333333333333 : ℚ) / 10 ^ 13)) = 33 := by
    norm_num [pyRound]
  rw [h, hpy]
  decide

/-- C4: each over-shoot iteration (running while the count exceeds `total`)
removes the first record in current list order whose category is "center";
when no "center" record remains it removes the record at index 0 whatever
its category — so a minority-category record can be silently deleted, as
the second conjunct shows on a list holding a single "congruent" record. -/
theorem overshoot_removes_first_center :
    (∀ (total : ℤ) (ts : List Trial), (ts.length : ℤ) > total →
      overshoot total ts = overshoot total
        (if ts.any (fun t => t.lineCondition == "center")
         then ts.eraseP (fun t => t.lineCondition == "center")
         else ts.tail)) ∧
    overshoot 0 [{ cueCondition := "cued", lineCondition := "congruent" }]
      = .ok [] := by
  constructor
  · intro total ts h
    cases ts with
    | nil => simp
    | cons t rest => rw [overshoot_step h, overshootStep_eq]
  · rw [overshoot_step (by simp)]
    have hstep : overshootStep
        [{ cueCondition := "cued", lineCondition := "congruent" }] = [] := by
      decide
    rw [hstep]
    exact overshoot_noop (by simp)

theorem overshoot_removes_first_center_witness :
    overshoot 2 [{ cueCondition := "cued", lineCondition := "congruent" },
                 { cueCondition := "uncued", lineCondition := "center" },
                 { cueCondition := "cued", lineCondition := "center" }]
      = overshoot 2
        (if ([{ cueCondition := "cued", lineCondition := "congruent" },
              { cueCondition := "uncued", lineCondition := "center" },
              { cueCondition := "cued", lineCondition := "center" }]
             : List Trial).any (fun t => t.lineCondition == "center")
         then ([{ cueCondition := "cued", lineCondition := "congruent" },
                { cueCondition := "uncued", lineCondition := "center" },
                { cueCondition := "cued", lineCondition := "center" }]
               : List Trial).eraseP (fun t => t.lineCondition == "center")
         else ([{ cueCondition := "cued", lineCondition := "congruent" },
                { cueCondition := "uncued", lineCondition := "center" },
                { cueCondition := "cued", lineCondition := "center" }]
               : List Trial).tail) :=
  overshoot_removes_first_center.1 2 _ (by norm_num)

/-- C8: two runs of the generator with the same total, (fixed) category
table and seed produce identical outputs whenever the reconciliation phase
makes no correction, i.e. when the allocation already has length `total`:
the seeded shuffle is deterministic in the seed and is then the only source
of ordering, so the unseeded reconciliation streams cannot differ. -/
theorem shuffle_reproducible (total seed : ℤ) (rnd1 rnd2 : ℕ → ℕ × ℕ)
    (halloc : ((allocation total).length : ℤ) = total) :
    generate total seed rnd1 = generate total seed rnd2 := by
  rw [generate, generate, reconcile, reconcile,
    undershoot_stop (by omega) rnd1 0, undershoot_stop (by omega) rnd2 0]

theorem shuffle_reproducible_witness :
    generate 6 42 (fun _ => (0, 0)) = generate 6 42 (fun k => (k, k + 1)) :=
  shuffle_reproducible 6 42 (fun _ => (0, 0)) (fun k => (k, k + 1))
    (by rw [allocation_six]; norm_num)

/-- The full output of the generator at total 5, seed 42, zero stream. -/
def gen5output : List NumberedTrial :=
  [{ cueCondition := "cued", lineCondition := "incongruent", trial_num := 1 },
   { cueCondition := "uncued", lineCondition := "center", trial_num := 2 },
   { cueCondition := "uncued", lineCondition := "incongruent", trial_num := 3 },
   { cueCondition := "uncued", lineCondition := "congruent", trial_num := 4 },
   { cueCondition := "cued", lineCondition := "congruent", trial_num := 5 }]

/-- C6 (counterexample): at `total = 5` every category's floor allocation
is exactly 1 per factor level (all three proportions are the same rational),
yet the over-shoot pass deletes the first "center" record and the final
output contains no ("cued", "center") record at all. -/
theorem coverage_counterexample :
    (pyRound ((5 : ℚ) * ((3333333333333 : ℚ) / 10 ^ 13))).fdiv 2 = 1 ∧
    line_conditions.map Prod.snd
      = [(3333333333333 : ℚ) / 10 ^ 13, (3333333333333 : ℚ) / 10 ^ 13,
         (3333333333333 : ℚ) / 10 ^ 13] ∧
    generate 5 42 (fun _ => (0, 0)) = .ok gen5output ∧
    ("cued", "center") ∉ gen5output.map NumberedTrial.pair := by
  refine ⟨?_, by simp [line_conditions], ?_, by decide⟩
  · have hpy : pyRound ((5 : ℚ) * ((3333333333333 : ℚ) / 10 ^ 13)) = 2 := by
      norm_num [pyRound]
    rw [hpy]
    decide
  · rw [generate, reconcile, allocation_five, undershoot_stop (by simp)]
    simp +decide [gen5output, overshoot_step, overshoot_noop, overshootStep,
      shuffle, shuffleGo_cons, shuffleGo_nil, lcg, numberTrials,
      List.erase_cons, List.getD]

/-- C6 (amended): when additionally the allocation phase does not
over-shoot (its length is at most `total`), every total whose per-level
floor allocation is at least 1 for every category yields a final list in
which every (factorLevel, categoryName) pair appears at least once. -/
theorem coverage_lower_bound_amended (total seed : ℤ) (rnd : ℕ → ℕ × ℕ)
    (h0 : 0 ≤ total)
    (hmin : ∀ lc ∈ line_conditions,
      1 ≤ (pyRound ((total : ℚ) * lc.2)).fdiv 2)
    (hfit : ((allocation total).length : ℤ) ≤ total) :
    ∀ cue ∈ cue_conditions, ∀ lc ∈ line_conditions,
      ∃ l, generate total seed rnd = .ok l ∧
        (cue, lc.1) ∈ l.map NumberedTrial.pair := by
  intro cue hcue lc hlc
  have hcnt := allocation_count total cue hcue lc hlc
  have hmem : ({ cueCondition := cue, lineCondition := lc.1 } : Trial)
      ∈ allocation total := by
    rw [← List.count_pos_iff, hcnt]
    have := hmin lc hlc
    omega
  obtain ⟨app, happ, _⟩ := undershoot_eq_append total rnd 0 (allocation total)
  have hmem2 : ({ cueCondition := cue, lineCondition := lc.1 } : Trial)
      ∈ undershoot total rnd 0 (allocation total) := by
    rw [happ]
    exact List.mem_append_left _ hmem
  have hlen : ((undershoot total rnd 0 (allocation total)).length : ℤ)
      ≤ total := by
    rw [undershoot_length]
    push_cast [Nat.cast_max]
    omega
  have hov : reconcile total rnd (allocation total)
      = .ok (undershoot total rnd 0 (allocation total)) := by
    rw [reconcile]
    exact overshoot_noop hlen
  refine ⟨_, by rw [generate, hov], ?_⟩
  rw [numberTrials_map_pair]
  have hmem3 : ({ cueCondition := cue, lineCondition := lc.1 } : Trial)
      ∈ shuffle seed (undershoot total rnd 0 (allocation total)) :=
    (shuffle_perm _ _).mem_iff.mpr hmem2
  exact List.mem_map_of_mem Trial.pair hmem3

theorem coverage_lower_bound_amended_witness :
    ∃ l, generate 6 42 (fun _ => (0, 0)) = .ok l ∧
      ("cued", "center") ∈ l.map NumberedTrial.pair := by
  have hpy : pyRound (((6 : ℤ) : ℚ) * ((3333333333333 : ℚ) / 10 ^ 13)) = 2 := by
    norm_num [pyRound]
  refine coverage_lower_bound_amended 6 42 (fun _ => (0, 0)) (by norm_num)
    ?_ (by rw [allocation_six]; norm_num) "cued" (by simp [cue_conditions])
    ("center", (3333333333333 : ℚ) / 10 ^ 13) (by simp [line_conditions])
  intro lc hlc
  simp only [line_conditions, List.mem_cons, List.not_mem_nil, or_false] at hlc
  rcases hlc with rfl | rfl | rfl <;> rw [hpy] <;> decide

/-- C7 (counterexample): called with the non-positive total 0 the generator
does not fail fast with a descriptive error before allocation: it runs all
four phases to completion and returns an (empty) output list. -/
theorem failfast_counterexample :
    generate 0 42 (fun _ => (0, 0)) = .ok [] := by
  rw [generate, reconcile, allocation_zero, undershoot_stop (by simp),
    overshoot_noop (by simp)]
  simp [shuffle, shuffleGo_nil, numberTrials]

/-- C7 (amended): the generator performs no validation of `total`. For
`total = 0` it silently returns an empty list with no error; for the
negative total -1 it does fail, but only inside the over-shoot
reconciliation loop (an index error from deleting out of an empty list),
after the allocation phase, not fast and not before allocation. -/
theorem no_validation_amended (seed : ℤ) (rnd : ℕ → ℕ × ℕ) :
    generate 0 seed rnd = .ok [] ∧
    generate (-1) seed rnd
      = .error "IndexError: list assignment index out of range" := by
  constructor
  · rw [generate, reconcile, allocation_zero, undershoot_stop (by simp),
      overshoot_noop (by simp)]
    simp [shuffle, shuffleGo_nil, numberTrials]
  · rw [generate, reconcile, allocation_neg_one, undershoot_stop (by norm_num),
      overshoot_fail (by norm_num)]

end ConditionGenerator
